import Mathlib

/-!
# Motion deblur (Wiener filter): a shallow embedding of `motion_deblur_filter.cpp`

The program composes four numeric functions over `cv::Mat` values:
`calcPSF`, `fftshift`, `filter2DFreq` and `calcWnrFilter`, and `main` crops the
image to even dimensions before running them.

Modelling decisions.

* `cv::Mat` is a record of its dimensions and an element accessor `px row col`
  (only `row < rows`, `col < cols` is storage; the accessor outside that range
  is never written by any operation below).
* `float`/`double` samples are idealised as exact real numbers `ℝ`, complex
  two-channel matrices as `Mat ℂ`.  Everything that only moves elements
  (`clone`, ROI views, `copyTo`, `fftshift`) is generic in the element type
  and computable.
* The OpenCV primitives `dft`, `idft`, `mulSpectrums`, `merge`, `split`, `sum`,
  `pow`, `abs`, `divide` are given their documented mathematical meaning; the
  two argument checks that matter here (`mulSpectrums` on unequal sizes,
  `ellipse` on a negative axis) raise `CvException`.
* `cv::ellipse` paints a colour on a set of pixels; which pixels are covered
  is decided by OpenCV's rasteriser and is taken as a parameter
  (`EllipseCoverage`).
-/

namespace MotionDeblur

/-! ## `cv::Mat`, `cv::Rect`, `cv::Size`, `cv::Point` -/

/-- A `cv::Mat` with one channel of element type `α`: `rows × cols` elements,
read with `px row col`. -/
@[ext]
structure Mat (α : Type) where
  rows : Nat
  cols : Nat
  px : Nat → Nat → α

/-- A `cv::Size(width, height)`. -/
structure Size where
  width : Nat
  height : Nat
deriving DecidableEq, Repr

/-- A `cv::Point(x, y)`. -/
structure Point where
  x : Nat
  y : Nat
deriving DecidableEq, Repr

/-- A `cv::Rect(x, y, width, height)`: columns `x .. x+width-1`, rows
`y .. y+height-1`. -/
structure Rect where
  x : Nat
  y : Nat
  width : Nat
  height : Nat
deriving DecidableEq, Repr

/-- The member `Rect::size()`. -/
def Rect.size (r : Rect) : Size := ⟨r.width, r.height⟩

/-- The member `Mat::size()`. -/
def Mat.size {α : Type} (m : Mat α) : Size := ⟨m.cols, m.rows⟩

/-- The constructor `Mat(size, type, Scalar(v))`: every element is `v`. -/
def Mat.filled {α : Type} (sz : Size) (v : α) : Mat α :=
  ⟨sz.height, sz.width, fun _ _ => v⟩

/-- The member `Mat::clone()`: a deep copy, the same value. -/
def Mat.clone {α : Type} (m : Mat α) : Mat α := m

/-- Whether pixel `(row, col)` lies inside the rectangle. -/
def Rect.contains (q : Rect) (row col : Nat) : Bool :=
  decide (q.y ≤ row) && decide (row < q.y + q.height) &&
    decide (q.x ≤ col) && decide (col < q.x + q.width)

/-- Reading a view: `Mat(m, roi).copyTo(tmp)` with `tmp` empty allocates a
fresh `roi.height × roi.width` matrix holding the elements of the region. -/
def Mat.roiCopy {α : Type} (m : Mat α) (q : Rect) : Mat α :=
  ⟨q.height, q.width, fun i j => m.px (q.y + i) (q.x + j)⟩

/-- Writing through a view: `src.copyTo(Mat(m, roi))` where `src` has the size
of the region overwrites the region of `m` and leaves the rest alone. -/
def Mat.writeRoi {α : Type} (m : Mat α) (q : Rect) (src : Mat α) : Mat α :=
  ⟨m.rows, m.cols, fun i j =>
    if q.contains i j then src.px (i - q.y) (j - q.x) else m.px i j⟩

/-! ## `fftshift` (source lines 98-114) -/

/-- The function `fftshift(inputImg, outputImg)`, returning `outputImg`. -/
def fftshift {α : Type} (inputImg : Mat α) : Mat α :=
  let outputImg := inputImg.clone
  let cx := outputImg.cols / 2
  let cy := outputImg.rows / 2
  let q0 : Rect := ⟨0, 0, cx, cy⟩
  let q1 : Rect := ⟨cx, 0, cx, cy⟩
  let q2 : Rect := ⟨0, cy, cx, cy⟩
  let q3 : Rect := ⟨cx, cy, cx, cy⟩
  -- q0.copyTo(tmp); q3.copyTo(q0); tmp.copyTo(q3);
  let tmp := outputImg.roiCopy q0
  let outputImg := outputImg.writeRoi q0 (outputImg.roiCopy q3)
  let outputImg := outputImg.writeRoi q3 tmp
  -- q1.copyTo(tmp); q2.copyTo(q1); tmp.copyTo(q2);
  let tmp := outputImg.roiCopy q1
  let outputImg := outputImg.writeRoi q1 (outputImg.roiCopy q2)
  let outputImg := outputImg.writeRoi q2 tmp
  outputImg

/-! ## The OpenCV primitives used by the numeric functions -/

/-- The error raised by a failed `CV_Assert` inside an OpenCV primitive. -/
inductive CvException where
  | assertFailed
deriving DecidableEq, Repr

/-- The call `Mat::zeros(size, CV_32F)`. -/
def Mat.zeros (sz : Size) : Mat ℝ := Mat.filled sz 0

/-- The call `merge(planes, 2, dst)`: a two-channel (complex) matrix from a
real-part plane and an imaginary-part plane of the same size. -/
def merge (re im : Mat ℝ) : Mat ℂ :=
  ⟨re.rows, re.cols, fun r c => ⟨re.px r c, im.px r c⟩⟩

/-- The call `split(src, planes)`: `planes[0]` is the real part, `planes[1]`
the imaginary part. -/
def split (src : Mat ℂ) : Mat ℝ × Mat ℝ :=
  (⟨src.rows, src.cols, fun r c => (src.px r c).re⟩,
   ⟨src.rows, src.cols, fun r c => (src.px r c).im⟩)

/-- The flags of `cv::dft` that the program uses. -/
structure DftFlags where
  inverse : Bool
  scale : Bool
deriving DecidableEq, Repr

/-- The flag value `0`: forward transform, no scaling. -/
def DFT_NONE : DftFlags := ⟨false, false⟩

/-- The flag `DFT_SCALE`: divide the result by the number of elements. -/
def DFT_SCALE : DftFlags := ⟨false, true⟩

/-- The entry `(j, k)` of the `n`-point Fourier matrix of `cv::dft`:
`exp(-2πi·jk/n)`, and the conjugate `exp(2πi·jk/n)` for the inverse
transform. -/
noncomputable def dftKernel (inverse : Bool) (n j k : Nat) : ℂ :=
  Complex.exp ((if inverse then 1 else -1) * (2 * Real.pi * Complex.I) * ((j * k : Nat) : ℂ) / n)

/-- The call `dft(src, dst, flags)` on a two-channel matrix: the two-dimensional
transform `F_rows · src · F_cols`, divided by `rows * cols` under `DFT_SCALE`;
the result has the size of `src`. -/
noncomputable def dft (src : Mat ℂ) (flags : DftFlags) : Mat ℂ :=
  ⟨src.rows, src.cols, fun k l =>
    (if flags.scale then 1 / ((src.rows * src.cols : Nat) : ℂ) else 1) *
      ∑ m ∈ Finset.range src.rows, ∑ n ∈ Finset.range src.cols,
        dftKernel flags.inverse src.rows k m * src.px m n * dftKernel flags.inverse src.cols n l⟩

/-- The call `idft(src, dst, flags)`, that is `dft(src, dst, flags | DFT_INVERSE)`:
the inverse transform (not scaled when `flags` is the default `0`). -/
noncomputable def idft (src : Mat ℂ) (flags : DftFlags) : Mat ℂ :=
  dft src ⟨true, flags.scale⟩

/-- The call `mulSpectrums(a, b, c, 0, conjB)` (`conjB` is `false` by default) on
full complex matrices: the
element-wise complex product (with the second factor conjugated when `conjB`);
OpenCV asserts that the two arrays have the same size. -/
noncomputable def mulSpectrums (a b : Mat ℂ) (conjB : Bool) : Except CvException (Mat ℂ) :=
  if a.rows = b.rows ∧ a.cols = b.cols then
    .ok ⟨a.rows, a.cols, fun r c =>
      a.px r c * (if conjB then (starRingEnd ℂ) (b.px r c) else b.px r c)⟩
  else .error .assertFailed

/-- The call `sum(m)[0]`: the sum of all elements. -/
noncomputable def Mat.sum (m : Mat ℝ) : ℝ :=
  ∑ r ∈ Finset.range m.rows, ∑ c ∈ Finset.range m.cols, m.px r c

/-- The matrix expression `m / s` with a scalar `s`. -/
noncomputable def Mat.divScalar (m : Mat ℝ) (s : ℝ) : Mat ℝ :=
  ⟨m.rows, m.cols, fun r c => m.px r c / s⟩

/-- The matrix expression `abs(m)`. -/
noncomputable def Mat.abs (m : Mat ℝ) : Mat ℝ :=
  ⟨m.rows, m.cols, fun r c => |m.px r c|⟩

/-- The call `pow(src, power, dst)` with an integer power. -/
noncomputable def Mat.pow (src : Mat ℝ) (power : Nat) : Mat ℝ :=
  ⟨src.rows, src.cols, fun r c => src.px r c ^ power⟩

/-- The statement `m += s` with a scalar `s`. -/
noncomputable def Mat.addScalar (m : Mat ℝ) (s : ℝ) : Mat ℝ :=
  ⟨m.rows, m.cols, fun r c => m.px r c + s⟩

/-- The call `divide(src1, src2, dst)`: the element-wise quotient. -/
noncomputable def divide (src1 src2 : Mat ℝ) : Mat ℝ :=
  ⟨src1.rows, src1.cols, fun r c => src1.px r c / src2.px r c⟩

/-- The arguments of one call of `cv::ellipse` that decide which pixels are
painted. -/
structure EllipseCall where
  imgSize : Size
  center : Point
  axesWidth : Int
  axesHeight : Int
  angle : Int
  startAngle : Int
  endAngle : Int
  thickness : Int
  lineType : Int
deriving DecidableEq, Repr

/-- The set of pixels `(row, col)` that OpenCV's rasteriser paints for a call of
`cv::ellipse`.  The rasteriser is OpenCV's; the program is modelled for any
such coverage. -/
abbrev EllipseCoverage := EllipseCall → Nat → Nat → Bool

/-- The call `ellipse(img, center, axes, angle, startAngle, endAngle, color,
thickness, lineType)`: OpenCV asserts that both axes are non-negative, then
writes `color` to every covered pixel of the image and leaves the others. -/
def ellipse (cover : EllipseCoverage) (img : Mat ℝ) (center : Point) (axesWidth axesHeight : Int)
    (angle startAngle endAngle : Int) (color : ℝ) (thickness lineType : Int) :
    Except CvException (Mat ℝ) :=
  if 0 ≤ axesWidth ∧ 0 ≤ axesHeight then
    .ok ⟨img.rows, img.cols, fun r c =>
      if cover ⟨img.size, center, axesWidth, axesHeight, angle, startAngle, endAngle,
          thickness, lineType⟩ r c then color
      else img.px r c⟩
  else .error .assertFailed

/-! ## `calcPSF` (source lines 86-94) -/

/-- The function `calcPSF(outputImg, filterSize, len, theta)`, returning
`outputImg`.  The last statement is `outputImg = h / summa[0]`; the function has
no test of `summa[0]` and no error of its own (the error case is the argument
check inside `ellipse`). -/
noncomputable def calcPSF (cover : EllipseCoverage) (filterSize : Size) (len theta : Int) :
    Except CvException (Mat ℝ) := do
  let h : Mat ℝ := Mat.filled filterSize 0
  let point : Point := ⟨filterSize.width / 2, filterSize.height / 2⟩
  let h ← ellipse cover h point 0 len (90 - theta) 0 360 255 (-1) 8
  let summa := h.sum
  return h.divScalar summa

/-! ## `filter2DFreq` (source lines 118-134) -/

/-- The function `filter2DFreq(inputImg, outputImg, H)`, returning
`outputImg`.  The conversions `Mat_<float>(...)` keep the values.  `H` is merged
with a zero plane and multiplied with the spectrum of the image as it is; the
error case is the size check inside `mulSpectrums`. -/
noncomputable def filter2DFreq (inputImg H : Mat ℝ) : Except CvException (Mat ℝ) := do
  let planes : Mat ℝ × Mat ℝ := (inputImg.clone, Mat.zeros inputImg.size)
  let complexI := merge planes.1 planes.2
  let complexI := dft complexI DFT_SCALE
  let planesH : Mat ℝ × Mat ℝ := (H.clone, Mat.zeros H.size)
  let complexH := merge planesH.1 planesH.2
  let complexIH ← mulSpectrums complexI complexH false
  let complexIH := idft complexIH DFT_NONE
  let planes := split complexIH
  return planes.1

/-! ## `calcWnrFilter` (source lines 138-151) -/

/-- The array `planes[0]` of `calcWnrFilter` after `split`: the real part of the
forward transform of the shifted PSF. -/
noncomputable def calcWnrFilter.planes0 (input_h_PSF : Mat ℝ) : Mat ℝ :=
  let h_PSF_shifted := fftshift input_h_PSF
  let planes : Mat ℝ × Mat ℝ := (h_PSF_shifted.clone, Mat.zeros h_PSF_shifted.size)
  let complexI := merge planes.1 planes.2
  let complexI := dft complexI DFT_NONE
  let planes := split complexI
  planes.1

/-- The array `denom` of `calcWnrFilter` after `denom += nsr`. -/
noncomputable def calcWnrFilter.denom (input_h_PSF : Mat ℝ) (nsr : ℝ) : Mat ℝ :=
  let denom := (calcWnrFilter.planes0 input_h_PSF).abs.pow 2
  denom.addScalar nsr

/-- The function `calcWnrFilter(input_h_PSF, output_G, nsr)`, returning
`output_G`. -/
noncomputable def calcWnrFilter (input_h_PSF : Mat ℝ) (nsr : ℝ) : Mat ℝ :=
  divide (calcWnrFilter.planes0 input_h_PSF) (calcWnrFilter.denom input_h_PSF nsr)

/-! ## The processing section of `main` (source lines 58-68) -/

/-- The values computed between the `[main]` markers. -/
structure MainValues where
  roi : Rect
  h : Mat ℝ
  Hw : Mat ℝ
  cropped : Mat ℝ
  imgOut : Mat ℝ

/-- The view `imgIn(roi)`. -/
def Mat.view {α : Type} (m : Mat α) (roi : Rect) : Mat α := m.roiCopy roi

/-- The statements of `main` between the `[main]` markers, for a loaded image
`imgIn` and the parsed options `LEN`, `THETA` and `SNR`.  The `int` members
`cols` and `rows` are non-negative, and `&` with `-2` is the two's complement
bitwise and. -/
noncomputable def mainCore (cover : EllipseCoverage) (imgIn : Mat ℝ) (LEN THETA snr : Int) :
    Except CvException MainValues := do
  let roi : Rect :=
    ⟨0, 0, (Int.land (imgIn.cols : Int) (-2)).toNat, (Int.land (imgIn.rows : Int) (-2)).toNat⟩
  let h ← calcPSF cover roi.size LEN THETA
  let Hw := calcWnrFilter h (1 / (snr : ℝ))
  let imgOut ← filter2DFreq (imgIn.view roi) Hw
  return ⟨roi, h, Hw, imgIn.view roi, imgOut⟩

/-! ## Definitions used in the statements: index maps, intermediate values,
references in the words of the specification, sample inputs -/

/-- The index that `fftshift` reads for output index `i` along an axis of
length `n`: the two halves of `0 .. 2*(n/2)-1` are exchanged, and a trailing
odd index stays. -/
def swapHalves (n i : Nat) : Nat :=
  if i < n / 2 then i + n / 2 else if i < n / 2 + n / 2 then i - n / 2 else i

/-- A sample array with even dimensions (4 rows, 6 columns) and pairwise
different elements. -/
def sampleEven : Mat Nat := ⟨4, 6, fun r c => 10 * r + c⟩

/-- The array `h` of `calcPSF` after the call of `ellipse` (when that call does
not raise): colour 255 on the covered pixels of an all-zero array. -/
noncomputable def calcPSF.h (cover : EllipseCoverage) (filterSize : Size) (len theta : Int) : Mat ℝ :=
  ⟨filterSize.height, filterSize.width, fun r c =>
    if cover ⟨filterSize, ⟨filterSize.width / 2, filterSize.height / 2⟩, 0, len, 90 - theta,
        0, 360, -1, 8⟩ r c then 255
    else 0⟩

/-- The coverage that paints only the centre pixel named in the call. -/
def centreOnly : EllipseCoverage := fun call r c =>
  decide (r = call.center.y) && decide (c = call.center.x)

/-- The coverage that paints every pixel. -/
def coverAll : EllipseCoverage := fun _ _ _ => true

/-- Reference in the words of the specification (Wiener filter, steps 1-3): the
real part of the unnormalised forward discrete Fourier transform of
`fftshift psf`, taken as a complex array with zero imaginary part. -/
noncomputable def specShiftedSpectrumRe (psf : Mat ℝ) (i j : Nat) : ℝ :=
  (∑ m ∈ Finset.range psf.rows, ∑ n ∈ Finset.range psf.cols,
    (((fftshift psf).px m n : ℝ) : ℂ) *
      (Complex.exp (-(2 * Real.pi * Complex.I) * ((i * m : Nat) : ℂ) / psf.rows) *
       Complex.exp (-(2 * Real.pi * Complex.I) * ((n * j : Nat) : ℂ) / psf.cols))).re

/-- A sample PSF: 2 x 2 with a single unit element. -/
noncomputable def samplePsf : Mat ℝ := ⟨2, 2, fun r c => if r = 1 ∧ c = 1 then 1 else 0⟩

/-- A sample loaded image: 3 rows, 5 columns. -/
noncomputable def sampleImage : Mat ℝ := ⟨3, 5, fun r c => (10 * r + c : Nat)⟩

/-- The principal `n`-th root of unity `exp(2πi/n)`. -/
noncomputable def unitRoot (n : Nat) : ℂ := Complex.exp (2 * Real.pi * Complex.I / n)

/-- The all-ones transfer function of a given size. -/
def onesLike (img : Mat ℝ) : Mat ℝ := Mat.filled img.size 1

/-- Specification, steps 1-2 without the scale: the unnormalised discrete Fourier
transform of a real array promoted to complex with zero imaginary part. -/
noncomputable def specDft (x : Mat ℝ) (k l : Nat) : ℂ :=
  ∑ m ∈ Finset.range x.rows, ∑ n ∈ Finset.range x.cols,
    ((x.px m n : ℝ) : ℂ) *
      Complex.exp (-(2 * Real.pi * Complex.I) *
        (((k * m : Nat) : ℂ) / x.rows + ((l * n : Nat) : ℂ) / x.cols))

/-- Specification, steps 5-6: the real part of the (unnormalised) inverse
discrete Fourier transform of a `rows x cols` spectrum. -/
noncomputable def specIdftRe (rows cols : Nat) (X : Nat → Nat → ℂ) (r c : Nat) : ℝ :=
  (∑ k ∈ Finset.range rows, ∑ l ∈ Finset.range cols,
    X k l * Complex.exp (2 * Real.pi * Complex.I *
      (((r * k : Nat) : ℂ) / rows + ((c * l : Nat) : ℂ) / cols))).re

/-- Specification of `filterInFrequencyDomain`, the six steps as written: the
spectrum of the image divided by the element count is multiplied point by point
with the unnormalised spectrum of the kernel. -/
noncomputable def specFilterSixStep (image kernel : Mat ℝ) (r c : Nat) : ℝ :=
  specIdftRe image.rows image.cols
    (fun k l => specDft image k l / ((image.rows * image.cols : Nat) : ℂ) * specDft kernel k l) r c

/-- The six steps with step 3 changed: the kernel is promoted to complex and used
as it is, as a frequency-domain transfer function; it is not transformed. -/
noncomputable def specFilterTransferFunction (image kernel : Mat ℝ) (r c : Nat) : ℝ :=
  specIdftRe image.rows image.cols
    (fun k l => specDft image k l / ((image.rows * image.cols : Nat) : ℂ) *
      ((kernel.px k l : ℝ) : ℂ)) r c

/-- A one-row image of two elements, `[1, 2]`. -/
noncomputable def rampRow : Mat ℝ := ⟨1, 2, fun _ c => (c + 1 : Nat)⟩

/-- A one-row array of two elements: a unit impulse at the origin, `[1, 0]`. -/
noncomputable def impulseRow : Mat ℝ := ⟨1, 2, fun _ c => if c = 0 then 1 else 0⟩

/-- The centre unit impulse: zero everywhere except 1 at `(rows/2, cols/2)`, the
position that `fftshift` maps to the origin. -/
noncomputable def unitImpulse (rows cols : Nat) : Mat ℝ :=
  ⟨rows, cols, fun r c => if r = rows / 2 ∧ c = cols / 2 then 1 else 0⟩

/-- The alternating sum of an array: the sum of `(-1)^(m+n) * x[m][n]`. -/
noncomputable def alternatingSum (x : Mat ℝ) : ℝ :=
  ∑ m ∈ Finset.range x.rows, ∑ n ∈ Finset.range x.cols, (-1) ^ (m + n) * x.px m n

/-- A 2 x 2 image: a single unit sample at the origin. -/
noncomputable def originSample : Mat ℝ := ⟨2, 2, fun r c => if r = 0 ∧ c = 0 then 1 else 0⟩

/-! ## `fftshift` -/

theorem fftshift_rows {α : Type} (A : Mat α) : (fftshift A).rows = A.rows := rfl

theorem fftshift_cols {α : Type} (A : Mat α) : (fftshift A).cols = A.cols := rfl

theorem swapHalves_swapHalves (n i : Nat) : swapHalves n (swapHalves n i) = i := by
  unfold swapHalves
  split_ifs <;> omega

theorem swapHalves_lt (n i : Nat) (h : i < n / 2 + n / 2) :
    swapHalves n i < n / 2 + n / 2 := by
  unfold swapHalves
  split_ifs <;> omega

/-- The element read at `(r, c)` after `fftshift`: inside the block covered by
the four quadrants both indices are exchanged across the halves; a trailing odd
row or column is left as it was. -/
theorem fftshift_px {α : Type} (A : Mat α) (r c : Nat) :
    (fftshift A).px r c =
      if r < A.rows / 2 + A.rows / 2 ∧ c < A.cols / 2 + A.cols / 2 then
        A.px (swapHalves A.rows r) (swapHalves A.cols c)
      else A.px r c := by
  simp only [fftshift, Mat.clone, Mat.writeRoi, Mat.roiCopy, Rect.contains, swapHalves,
    Bool.and_eq_true, decide_eq_true_eq, Nat.zero_le, true_and, and_true, Nat.zero_add,
    Nat.sub_zero, Nat.add_sub_cancel_left]
  split_ifs <;> first | rfl | (exfalso; omega) | (simp only [Nat.add_comm])

/-- Applying `fftshift` twice gives the array back, whatever the dimensions. -/
theorem fftshift_fftshift {α : Type} (A : Mat α) : fftshift (fftshift A) = A := by
  ext r c
  · rfl
  · rfl
  · rw [fftshift_px, fftshift_rows, fftshift_cols]
    split_ifs with h
    · rw [fftshift_px, if_pos ⟨swapHalves_lt _ _ h.1, swapHalves_lt _ _ h.2⟩,
        swapHalves_swapHalves, swapHalves_swapHalves]
    · rw [fftshift_px, if_neg h]

/-- Index arithmetic of the half-period shift on an even length. -/
theorem half_shift_mod (n r : Nat) (hn : n % 2 = 0) (hr : r < n) :
    (r + n / 2) % n = if r < n / 2 then r + n / 2 else r - n / 2 := by
  split_ifs with h
  · exact Nat.mod_eq_of_lt (by omega)
  · rw [Nat.mod_eq_sub_mod (by omega), Nat.mod_eq_of_lt (by omega)]
    omega

/-- The element read at `(r, c)` after `fftshift` of an array with even
dimensions is the element a half period away in both directions. -/
theorem fftshift_px_even {α : Type} (A : Mat α) (hr : A.rows % 2 = 0) (hc : A.cols % 2 = 0)
    (r c : Nat) (h1 : r < A.rows) (h2 : c < A.cols) :
    (fftshift A).px r c = A.px ((r + A.rows / 2) % A.rows) ((c + A.cols / 2) % A.cols) := by
  rw [fftshift_px, if_pos ⟨by omega, by omega⟩, half_shift_mod _ _ hr h1,
    half_shift_mod _ _ hc h2]
  have e1 : swapHalves A.rows r = if r < A.rows / 2 then r + A.rows / 2 else r - A.rows / 2 := by
    unfold swapHalves
    split_ifs <;> omega
  have e2 : swapHalves A.cols c = if c < A.cols / 2 then c + A.cols / 2 else c - A.cols / 2 := by
    unfold swapHalves
    split_ifs <;> omega
  rw [e1, e2]

/-- C1: `fftshift` is an involution: for every array whose row count and column
count are both even, `fftshift (fftshift A)` is `A` (the same dimensions and the
same element at every position).  (The evenness is not needed: a trailing odd
row or column is not moved.) -/
theorem C1_fftshift_involution {α : Type} (A : Mat α)
    (hrows : A.rows % 2 = 0) (hcols : A.cols % 2 = 0) :
    fftshift (fftshift A) = A :=
  fftshift_fftshift A

theorem C1_fftshift_involution_witness :
    sampleEven.rows % 2 = 0 ∧ sampleEven.cols % 2 = 0 ∧
      fftshift (fftshift sampleEven) = sampleEven :=
  ⟨by decide, by decide, C1_fftshift_involution sampleEven (by decide) (by decide)⟩

/-- C7: `fftshift` is the quadrant swap: for an array with even width `w` and even
height `h` the output has the same dimensions, `output[r][c]` is
`input[(r + h/2) mod h][(c + w/2) mod w]` for every row `r < h` and column
`c < w`, and (the array being non-empty) the element at the centre
`(h/2, w/2)` lands at the origin while the element at the origin lands at the
centre. -/
theorem C7_fftshift_quadrant_swap {α : Type} (A : Mat α)
    (hrows : A.rows % 2 = 0) (hcols : A.cols % 2 = 0) :
    (fftshift A).rows = A.rows ∧ (fftshift A).cols = A.cols ∧
      (∀ r c, r < A.rows → c < A.cols →
        (fftshift A).px r c = A.px ((r + A.rows / 2) % A.rows) ((c + A.cols / 2) % A.cols)) ∧
      (0 < A.rows → 0 < A.cols →
        (fftshift A).px 0 0 = A.px (A.rows / 2) (A.cols / 2) ∧
        (fftshift A).px (A.rows / 2) (A.cols / 2) = A.px 0 0) := by
  refine ⟨rfl, rfl, fun r c h1 h2 => fftshift_px_even A hrows hcols r c h1 h2, ?_⟩
  intro h1 h2
  have e1 : A.rows / 2 < A.rows := by omega
  have e2 : A.cols / 2 < A.cols := by omega
  constructor
  · rw [fftshift_px_even A hrows hcols 0 0 h1 h2]
    simp [Nat.mod_eq_of_lt e1, Nat.mod_eq_of_lt e2]
  · rw [fftshift_px_even A hrows hcols _ _ e1 e2]
    have e3 : A.rows / 2 + A.rows / 2 = A.rows := by omega
    have e4 : A.cols / 2 + A.cols / 2 = A.cols := by omega
    rw [e3, e4, Nat.mod_self, Nat.mod_self]

theorem C7_fftshift_quadrant_swap_witness :
    sampleEven.rows % 2 = 0 ∧ sampleEven.cols % 2 = 0 ∧
    ((fftshift sampleEven).rows = sampleEven.rows ∧
      (fftshift sampleEven).cols = sampleEven.cols ∧
      (∀ r c, r < sampleEven.rows → c < sampleEven.cols →
        (fftshift sampleEven).px r c =
          sampleEven.px ((r + sampleEven.rows / 2) % sampleEven.rows)
            ((c + sampleEven.cols / 2) % sampleEven.cols)) ∧
      (0 < sampleEven.rows → 0 < sampleEven.cols →
        (fftshift sampleEven).px 0 0 = sampleEven.px (sampleEven.rows / 2) (sampleEven.cols / 2) ∧
        (fftshift sampleEven).px (sampleEven.rows / 2) (sampleEven.cols / 2) =
          sampleEven.px 0 0)) :=
  ⟨by decide, by decide, C7_fftshift_quadrant_swap sampleEven (by decide) (by decide)⟩

/-! ## `calcPSF` -/

theorem ellipse_calcPSF (cover : EllipseCoverage) (filterSize : Size) (len theta : Int)
    (hlen : 0 ≤ len) :
    ellipse cover (Mat.filled filterSize 0) ⟨filterSize.width / 2, filterSize.height / 2⟩
      0 len (90 - theta) 0 360 255 (-1) 8 = .ok (calcPSF.h cover filterSize len theta) := by
  simp [ellipse, hlen, calcPSF.h, Mat.filled, Mat.size]

theorem calcPSF_ok (cover : EllipseCoverage) (filterSize : Size) (len theta : Int)
    (hlen : 0 ≤ len) :
    calcPSF cover filterSize len theta =
      .ok ((calcPSF.h cover filterSize len theta).divScalar
        (calcPSF.h cover filterSize len theta).sum) := by
  unfold calcPSF
  dsimp only
  rw [ellipse_calcPSF cover filterSize len theta hlen]
  rfl

theorem calcPSF_error (cover : EllipseCoverage) (filterSize : Size) (len theta : Int)
    (hlen : len < 0) :
    calcPSF cover filterSize len theta = .error .assertFailed := by
  unfold calcPSF ellipse
  dsimp only
  rw [if_neg (by omega)]
  rfl

theorem calcPSF_h_sum_pos (cover : EllipseCoverage) (filterSize : Size) (len theta : Int)
    (hw : 0 < filterSize.width) (hh : 0 < filterSize.height)
    (hcentre : cover ⟨filterSize, ⟨filterSize.width / 2, filterSize.height / 2⟩, 0, len,
      90 - theta, 0, 360, -1, 8⟩ (filterSize.height / 2) (filterSize.width / 2) = true) :
    0 < (calcPSF.h cover filterSize len theta).sum := by
  have hnn : ∀ r c, 0 ≤ (calcPSF.h cover filterSize len theta).px r c := by
    intro r c
    simp only [calcPSF.h]
    split_ifs <;> norm_num
  have h1 : (calcPSF.h cover filterSize len theta).px (filterSize.height / 2)
      (filterSize.width / 2) = 255 := by
    simp only [calcPSF.h]
    rw [if_pos hcentre]
  have h2 : (calcPSF.h cover filterSize len theta).px (filterSize.height / 2)
      (filterSize.width / 2) ≤ (calcPSF.h cover filterSize len theta).sum := by
    unfold Mat.sum
    have hr : filterSize.height / 2 ∈ Finset.range (calcPSF.h cover filterSize len theta).rows := by
      simp only [calcPSF.h, Finset.mem_range]
      omega
    have hc : filterSize.width / 2 ∈ Finset.range (calcPSF.h cover filterSize len theta).cols := by
      simp only [calcPSF.h, Finset.mem_range]
      omega
    calc (calcPSF.h cover filterSize len theta).px (filterSize.height / 2) (filterSize.width / 2)
        ≤ ∑ c ∈ Finset.range (calcPSF.h cover filterSize len theta).cols,
            (calcPSF.h cover filterSize len theta).px (filterSize.height / 2) c :=
          Finset.single_le_sum (f := fun c =>
            (calcPSF.h cover filterSize len theta).px (filterSize.height / 2) c)
            (fun c _ => hnn _ c) hc
      _ ≤ _ :=
          Finset.single_le_sum (f := fun r =>
            ∑ c ∈ Finset.range (calcPSF.h cover filterSize len theta).cols,
              (calcPSF.h cover filterSize len theta).px r c)
            (fun r _ => Finset.sum_nonneg (fun c _ => hnn r c)) hr
  rw [h1] at h2
  linarith

theorem divScalar_sum (m : Mat ℝ) (s : ℝ) : (m.divScalar s).sum = m.sum / s := by
  simp only [Mat.sum, Mat.divScalar, Finset.sum_div]

/-- C5: PSF normalisation.  For a positive even size, a length of at least 1 and
any angle, with a rasteriser that paints the centre pixel of the line, the call
of `ellipse` in `calcPSF` returns the painted array `h` (all elements 0 or
255), `calcPSF` returns `h` divided element by element by its own sum, and the
elements of the returned array sum to 1.  (The evenness is not needed.) -/
theorem C5_psf_normalisation (cover : EllipseCoverage) (filterSize : Size) (len theta : Int)
    (hw : 0 < filterSize.width) (hh : 0 < filterSize.height)
    (hweven : filterSize.width % 2 = 0) (hheven : filterSize.height % 2 = 0)
    (hlen : 1 ≤ len)
    (hcentre : cover ⟨filterSize, ⟨filterSize.width / 2, filterSize.height / 2⟩, 0, len,
      90 - theta, 0, 360, -1, 8⟩ (filterSize.height / 2) (filterSize.width / 2) = true) :
    ellipse cover (Mat.filled filterSize 0) ⟨filterSize.width / 2, filterSize.height / 2⟩
        0 len (90 - theta) 0 360 255 (-1) 8 = .ok (calcPSF.h cover filterSize len theta) ∧
    ∃ psf, calcPSF cover filterSize len theta = .ok psf ∧
      (∀ r c, (calcPSF.h cover filterSize len theta).px r c = 0 ∨
        (calcPSF.h cover filterSize len theta).px r c = 255) ∧
      psf.rows = filterSize.height ∧ psf.cols = filterSize.width ∧
      (∀ r c, psf.px r c = (calcPSF.h cover filterSize len theta).px r c /
        (calcPSF.h cover filterSize len theta).sum) ∧
      psf.sum = 1 := by
  refine ⟨ellipse_calcPSF cover filterSize len theta (by omega),
    _, calcPSF_ok cover filterSize len theta (by omega), ?_, rfl, rfl, fun _ _ => rfl, ?_⟩
  · intro r c
    simp only [calcPSF.h]
    split_ifs
    · exact Or.inr rfl
    · exact Or.inl rfl
  · rw [divScalar_sum]
    exact div_self (ne_of_gt (calcPSF_h_sum_pos cover filterSize len theta hw hh hcentre))

theorem C5_psf_normalisation_witness :
    centreOnly ⟨⟨4, 2⟩, ⟨4 / 2, 2 / 2⟩, 0, 78, 90 - 12, 0, 360, -1, 8⟩ (2 / 2) (4 / 2) = true ∧
    ∃ psf, calcPSF centreOnly ⟨4, 2⟩ 78 12 = .ok psf ∧
      (∀ r c, (calcPSF.h centreOnly ⟨4, 2⟩ 78 12).px r c = 0 ∨
        (calcPSF.h centreOnly ⟨4, 2⟩ 78 12).px r c = 255) ∧
      psf.rows = 2 ∧ psf.cols = 4 ∧
      (∀ r c, psf.px r c = (calcPSF.h centreOnly ⟨4, 2⟩ 78 12).px r c /
        (calcPSF.h centreOnly ⟨4, 2⟩ 78 12).sum) ∧
      psf.sum = 1 :=
  ⟨by decide,
    (C5_psf_normalisation centreOnly ⟨4, 2⟩ 78 12 (by decide) (by decide) (by decide)
      (by decide) (by decide) (by decide)).2⟩

/-- C9 (as stated) fails: for the zero-area size 0 x 2 (a one-pixel-wide image
after cropping) the painted kernel has total sum 0, and `calcPSF` still divides
by that sum and returns an array; it reports no error. -/
theorem C9_zero_mass_guard_counterexample :
    ellipse coverAll (Mat.filled ⟨0, 2⟩ 0) ⟨0, 1⟩ 0 78 (90 - 12) 0 360 255 (-1) 8 =
        .ok (calcPSF.h coverAll ⟨0, 2⟩ 78 12) ∧
      (calcPSF.h coverAll ⟨0, 2⟩ 78 12).sum = 0 ∧
      calcPSF coverAll ⟨0, 2⟩ 78 12 = .ok ((calcPSF.h coverAll ⟨0, 2⟩ 78 12).divScalar 0) ∧
      ∀ e, calcPSF coverAll ⟨0, 2⟩ 78 12 ≠ .error e := by
  have hs : (calcPSF.h coverAll ⟨0, 2⟩ 78 12).sum = 0 := by
    simp [Mat.sum, calcPSF.h]
  have hok := calcPSF_ok coverAll ⟨0, 2⟩ 78 12 (by decide)
  rw [hs] at hok
  refine ⟨ellipse_calcPSF coverAll ⟨0, 2⟩ 78 12 (by decide), hs, hok, ?_⟩
  intro e he
  rw [hok] at he
  cases he

/-- C9 (amended): `calcPSF` has no zero-mass guard.  For every size, every
length of at least 0 and every angle it returns an array of the requested size
and no error, whatever the sum of the painted kernel; when that sum is not 0,
every element is the painted element divided by the sum. -/
theorem C9_calcPSF_always_returns (cover : EllipseCoverage) (filterSize : Size) (len theta : Int)
    (hlen : 0 ≤ len) :
    ∃ psf, calcPSF cover filterSize len theta = .ok psf ∧
      psf.rows = filterSize.height ∧ psf.cols = filterSize.width ∧
      ((calcPSF.h cover filterSize len theta).sum ≠ 0 →
        ∀ r c, psf.px r c = (calcPSF.h cover filterSize len theta).px r c /
          (calcPSF.h cover filterSize len theta).sum) :=
  ⟨_, calcPSF_ok cover filterSize len theta hlen, rfl, rfl, fun _ _ _ => rfl⟩

theorem C9_calcPSF_always_returns_witness :
    ∃ psf, calcPSF coverAll ⟨0, 2⟩ 78 12 = .ok psf ∧
      psf.rows = 2 ∧ psf.cols = 0 ∧
      ((calcPSF.h coverAll ⟨0, 2⟩ 78 12).sum ≠ 0 →
        ∀ r c, psf.px r c = (calcPSF.h coverAll ⟨0, 2⟩ 78 12).px r c /
          (calcPSF.h coverAll ⟨0, 2⟩ 78 12).sum) :=
  C9_calcPSF_always_returns coverAll ⟨0, 2⟩ 78 12 (by decide)

/-! ## `calcWnrFilter` -/

theorem calcWnrFilter_rows (psf : Mat ℝ) (nsr : ℝ) : (calcWnrFilter psf nsr).rows = psf.rows := rfl
theorem calcWnrFilter_cols (psf : Mat ℝ) (nsr : ℝ) : (calcWnrFilter psf nsr).cols = psf.cols := rfl

theorem dftKernel_forward (n j k : Nat) :
    dftKernel false n j k = Complex.exp (-(2 * Real.pi * Complex.I) * ((j * k : Nat) : ℂ) / n) := by
  simp [dftKernel]

theorem planes0_px (psf : Mat ℝ) (i j : Nat) :
    (calcWnrFilter.planes0 psf).px i j = specShiftedSpectrumRe psf i j := by
  simp only [calcWnrFilter.planes0, split, dft, merge, Mat.clone, DFT_NONE, Mat.zeros, Mat.filled,
    specShiftedSpectrumRe, dftKernel_forward, fftshift_rows, fftshift_cols, Bool.false_eq_true,
    if_false, one_mul]
  congr 1
  refine Finset.sum_congr rfl fun m _ => Finset.sum_congr rfl fun n _ => ?_
  have e : (⟨(fftshift psf).px m n, 0⟩ : ℂ) = (((fftshift psf).px m n : ℝ) : ℂ) := rfl
  rw [e]
  ring

/-- C3: for every PSF, every `nsr` and every index, the element of
`calcWnrFilter psf nsr` is `R / (R^2 + nsr)`, where `R` is the real part of the
unnormalised forward transform of `fftshift psf` (with zero imaginary part);
the imaginary part of the spectrum is not used. -/
theorem C3_wiener_formula (psf : Mat ℝ) (nsr : ℝ) (i j : Nat) :
    (calcWnrFilter psf nsr).px i j =
      specShiftedSpectrumRe psf i j / (specShiftedSpectrumRe psf i j ^ 2 + nsr) := by
  rw [← planes0_px]
  simp only [calcWnrFilter, divide, calcWnrFilter.denom, Mat.addScalar, Mat.pow, Mat.abs, sq_abs]

theorem C3_wiener_formula_witness :
    (calcWnrFilter samplePsf (1 / 100)).px 0 1 =
      specShiftedSpectrumRe samplePsf 0 1 / (specShiftedSpectrumRe samplePsf 0 1 ^ 2 + 1 / 100) :=
  C3_wiener_formula samplePsf (1 / 100) 0 1

/-- C6: for every PSF and every `nsr > 0` the output of `calcWnrFilter` has the
dimensions of the PSF, and at every index the denominator is
`Re(spectrum)^2 + nsr`, at least `nsr` and strictly positive, so the quotient
that makes the output element never divides by zero. -/
theorem C6_wiener_shape_finite (psf : Mat ℝ) (nsr : ℝ) (hnsr : 0 < nsr) :
    (calcWnrFilter psf nsr).rows = psf.rows ∧ (calcWnrFilter psf nsr).cols = psf.cols ∧
      ∀ i j,
        (calcWnrFilter.denom psf nsr).px i j = (calcWnrFilter.planes0 psf).px i j ^ 2 + nsr ∧
        nsr ≤ (calcWnrFilter.denom psf nsr).px i j ∧
        0 < (calcWnrFilter.denom psf nsr).px i j ∧
        (calcWnrFilter psf nsr).px i j =
          (calcWnrFilter.planes0 psf).px i j / (calcWnrFilter.denom psf nsr).px i j ∧
        (calcWnrFilter psf nsr).px i j * (calcWnrFilter.denom psf nsr).px i j =
          (calcWnrFilter.planes0 psf).px i j := by
  refine ⟨rfl, rfl, fun i j => ?_⟩
  have hd : (calcWnrFilter.denom psf nsr).px i j = (calcWnrFilter.planes0 psf).px i j ^ 2 + nsr := by
    simp only [calcWnrFilter.denom, Mat.addScalar, Mat.pow, Mat.abs, sq_abs]
  have hsq : 0 ≤ (calcWnrFilter.planes0 psf).px i j ^ 2 := sq_nonneg _
  have hpos : 0 < (calcWnrFilter.denom psf nsr).px i j := by rw [hd]; linarith
  refine ⟨hd, by rw [hd]; linarith, hpos, rfl, ?_⟩
  show (calcWnrFilter.planes0 psf).px i j / (calcWnrFilter.denom psf nsr).px i j *
    (calcWnrFilter.denom psf nsr).px i j = _
  exact div_mul_cancel₀ _ (ne_of_gt hpos)

theorem C6_wiener_shape_finite_witness :
    (0 : ℝ) < 1 / 100 ∧
    ((calcWnrFilter samplePsf (1 / 100)).rows = samplePsf.rows ∧
      (calcWnrFilter samplePsf (1 / 100)).cols = samplePsf.cols ∧
      ∀ i j,
        (calcWnrFilter.denom samplePsf (1 / 100)).px i j =
          (calcWnrFilter.planes0 samplePsf).px i j ^ 2 + 1 / 100 ∧
        1 / 100 ≤ (calcWnrFilter.denom samplePsf (1 / 100)).px i j ∧
        0 < (calcWnrFilter.denom samplePsf (1 / 100)).px i j ∧
        (calcWnrFilter samplePsf (1 / 100)).px i j =
          (calcWnrFilter.planes0 samplePsf).px i j /
            (calcWnrFilter.denom samplePsf (1 / 100)).px i j ∧
        (calcWnrFilter samplePsf (1 / 100)).px i j *
            (calcWnrFilter.denom samplePsf (1 / 100)).px i j =
          (calcWnrFilter.planes0 samplePsf).px i j) :=
  ⟨by norm_num, C6_wiener_shape_finite samplePsf (1 / 100) (by norm_num)⟩

/-! ## The Fourier matrices -/

theorem unitRoot_isPrimitiveRoot (n : Nat) (hn : n ≠ 0) : IsPrimitiveRoot (unitRoot n) n :=
  Complex.isPrimitiveRoot_exp n hn

theorem unitRoot_ne_zero (n : Nat) : unitRoot n ≠ 0 := Complex.exp_ne_zero _

theorem dftKernel_inverse (n j k : Nat) : dftKernel true n j k = unitRoot n ^ (j * k) := by
  unfold dftKernel unitRoot
  rw [← Complex.exp_nat_mul]
  congr 1
  simp only [if_true]
  ring

theorem dftKernel_forward_root (n j k : Nat) :
    dftKernel false n j k = (unitRoot n)⁻¹ ^ (j * k) := by
  unfold dftKernel unitRoot
  rw [← Complex.exp_neg, ← Complex.exp_nat_mul]
  congr 1
  simp only [Bool.false_eq_true, if_false]
  ring

theorem dftKernel_symm (inverse : Bool) (n j k : Nat) :
    dftKernel inverse n j k = dftKernel inverse n k j := by
  unfold dftKernel
  rw [Nat.mul_comm]

theorem dftKernel_zero_left (inverse : Bool) (n k : Nat) : dftKernel inverse n 0 k = 1 := by
  simp [dftKernel]

theorem dftKernel_zero_right (inverse : Bool) (n j : Nat) : dftKernel inverse n j 0 = 1 := by
  simp [dftKernel]

/-- Orthogonality of the rows of the forward and inverse Fourier matrices. -/
theorem dftKernel_orthogonal (n a b : Nat) (ha : a < n) (hb : b < n) :
    ∑ k ∈ Finset.range n, dftKernel true n b k * dftKernel false n k a =
      if a = b then (n : ℂ) else 0 := by
  have hn : n ≠ 0 := by omega
  have hprim := unitRoot_isPrimitiveRoot n hn
  have hz := unitRoot_ne_zero n
  have hterm : ∀ k, dftKernel true n b k * dftKernel false n k a =
      (unitRoot n ^ b * (unitRoot n)⁻¹ ^ a) ^ k := by
    intro k
    rw [dftKernel_inverse, dftKernel_forward_root, mul_pow, ← pow_mul, ← pow_mul, mul_comm k a]
  simp only [hterm]
  split_ifs with hab
  · subst hab
    have : unitRoot n ^ a * (unitRoot n)⁻¹ ^ a = 1 := by
      rw [← mul_pow, mul_inv_cancel₀ hz, one_pow]
    rw [this]
    simp
  · have hne : unitRoot n ^ b * (unitRoot n)⁻¹ ^ a ≠ 1 := by
      intro h
      apply hab
      have h2 : unitRoot n ^ b = unitRoot n ^ a := by
        have := congrArg (fun z => z * unitRoot n ^ a) h
        simp only [one_mul] at this
        rw [mul_assoc, ← mul_pow, inv_mul_cancel₀ hz, one_pow, mul_one] at this
        exact this
      exact (hprim.pow_inj hb ha h2).symm
    have hpow : (unitRoot n ^ b * (unitRoot n)⁻¹ ^ a) ^ n = 1 := by
      rw [mul_pow, ← pow_mul, ← pow_mul, mul_comm b n, mul_comm a n, pow_mul, pow_mul,
        inv_pow, hprim.pow_eq_one]
      simp
    have hg := geom_sum_mul (unitRoot n ^ b * (unitRoot n)⁻¹ ^ a) n
    rw [hpow, sub_self] at hg
    rcases mul_eq_zero.mp hg with h | h
    · exact h
    · exact absurd (sub_eq_zero.mp h) hne

theorem unitRoot_pow_half (n : Nat) (hn : 0 < n) (he : n % 2 = 0) :
    unitRoot n ^ (n / 2) = -1 := by
  obtain ⟨m, rfl⟩ : ∃ m, n = 2 * m := ⟨n / 2, by omega⟩
  have hm : 2 * m / 2 = m := by omega
  have hne : (m : ℂ) ≠ 0 := Nat.cast_ne_zero.mpr (by omega)
  rw [hm]
  unfold unitRoot
  rw [← Complex.exp_nat_mul, ← Complex.exp_pi_mul_I]
  congr 1
  push_cast
  field_simp
  ring

theorem dftKernel_inverse_half (n r : Nat) (hn : 0 < n) (he : n % 2 = 0) :
    dftKernel true n r (n / 2) = (-1) ^ r := by
  rw [dftKernel_inverse, mul_comm, pow_mul, unitRoot_pow_half n hn he]

theorem dftKernel_forward_half (n m : Nat) (hn : 0 < n) (he : n % 2 = 0) :
    dftKernel false n (n / 2) m = (-1) ^ m := by
  rw [dftKernel_forward_root, pow_mul, inv_pow, unitRoot_pow_half n hn he]
  norm_num

/-- Reordering a four-fold sum whose summand is a product of a factor in
`(m, n)`, a factor in `(k, m)` and a factor in `(l, n)`. -/
theorem sum_separate (R C : Nat) (A : Nat → Nat → ℂ) (B : Nat → Nat → ℂ) (D : Nat → Nat → ℂ) :
    ∑ k ∈ Finset.range R, ∑ l ∈ Finset.range C, ∑ m ∈ Finset.range R, ∑ n ∈ Finset.range C,
        A m n * B k m * D l n =
      ∑ m ∈ Finset.range R, ∑ n ∈ Finset.range C,
        A m n * (∑ k ∈ Finset.range R, B k m) * (∑ l ∈ Finset.range C, D l n) := by
  calc ∑ k ∈ Finset.range R, ∑ l ∈ Finset.range C, ∑ m ∈ Finset.range R, ∑ n ∈ Finset.range C,
        A m n * B k m * D l n
      = ∑ k ∈ Finset.range R, ∑ m ∈ Finset.range R, ∑ l ∈ Finset.range C, ∑ n ∈ Finset.range C,
        A m n * B k m * D l n :=
        Finset.sum_congr rfl fun k _ => Finset.sum_comm
    _ = ∑ m ∈ Finset.range R, ∑ k ∈ Finset.range R, ∑ l ∈ Finset.range C, ∑ n ∈ Finset.range C,
        A m n * B k m * D l n := Finset.sum_comm
    _ = ∑ m ∈ Finset.range R, ∑ k ∈ Finset.range R, ∑ n ∈ Finset.range C, ∑ l ∈ Finset.range C,
        A m n * B k m * D l n :=
        Finset.sum_congr rfl fun m _ => Finset.sum_congr rfl fun k _ => Finset.sum_comm
    _ = ∑ m ∈ Finset.range R, ∑ n ∈ Finset.range C, ∑ k ∈ Finset.range R, ∑ l ∈ Finset.range C,
        A m n * B k m * D l n :=
        Finset.sum_congr rfl fun m _ => Finset.sum_comm
    _ = _ := by
        refine Finset.sum_congr rfl fun m _ => Finset.sum_congr rfl fun n _ => ?_
        rw [mul_assoc, Finset.sum_mul_sum, Finset.mul_sum]
        refine Finset.sum_congr rfl fun k _ => ?_
        rw [Finset.mul_sum]
        refine Finset.sum_congr rfl fun l _ => ?_
        ring

/-- The scaled forward transform followed by the unscaled inverse transform
gives every in-range element back. -/
theorem dft_roundtrip_sum (x : Nat → Nat → ℂ) (R C r c : Nat) (hr : r < R) (hc : c < C) :
    ∑ k ∈ Finset.range R, ∑ l ∈ Finset.range C,
        dftKernel true R r k *
          (1 / ((R * C : Nat) : ℂ) * ∑ m ∈ Finset.range R, ∑ n ∈ Finset.range C,
            dftKernel false R k m * x m n * dftKernel false C n l) *
          dftKernel true C l c = x r c := by
  have hR : (R : ℂ) ≠ 0 := Nat.cast_ne_zero.mpr (by omega)
  have hC : (C : ℂ) ≠ 0 := Nat.cast_ne_zero.mpr (by omega)
  have step1 : ∀ k l,
      dftKernel true R r k *
          (1 / ((R * C : Nat) : ℂ) * ∑ m ∈ Finset.range R, ∑ n ∈ Finset.range C,
            dftKernel false R k m * x m n * dftKernel false C n l) *
          dftKernel true C l c =
        ∑ m ∈ Finset.range R, ∑ n ∈ Finset.range C,
          (1 / ((R * C : Nat) : ℂ) * x m n) * (dftKernel true R r k * dftKernel false R k m) *
            (dftKernel true C c l * dftKernel false C l n) := by
    intro k l
    rw [Finset.mul_sum, Finset.mul_sum, Finset.sum_mul]
    refine Finset.sum_congr rfl fun m _ => ?_
    rw [Finset.mul_sum, Finset.mul_sum, Finset.sum_mul]
    refine Finset.sum_congr rfl fun n _ => ?_
    rw [dftKernel_symm true C l c, dftKernel_symm false C n l]
    ring
  simp only [step1]
  rw [sum_separate R C (fun m n => 1 / ((R * C : Nat) : ℂ) * x m n)
    (fun k m => dftKernel true R r k * dftKernel false R k m)
    (fun l n => dftKernel true C c l * dftKernel false C l n)]
  have o1 : ∀ m ∈ Finset.range R, ∀ n ∈ Finset.range C,
      1 / ((R * C : Nat) : ℂ) * x m n *
          (∑ k ∈ Finset.range R, dftKernel true R r k * dftKernel false R k m) *
          (∑ l ∈ Finset.range C, dftKernel true C c l * dftKernel false C l n) =
        if m = r then (if n = c then x m n else 0) else 0 := by
    intro m hm n hn
    rw [dftKernel_orthogonal R m r (Finset.mem_range.mp hm) hr,
      dftKernel_orthogonal C n c (Finset.mem_range.mp hn) hc]
    split_ifs
    · push_cast
      field_simp
      ring
    · simp
    · simp
    · simp
  rw [Finset.sum_congr rfl fun m hm => Finset.sum_congr rfl fun n hn => o1 m hm n hn]
  rw [Finset.sum_eq_single r]
  · simp only [if_true]
    rw [Finset.sum_eq_single c]
    · rw [if_pos rfl]
    · intro b _ hb
      rw [if_neg hb]
    · intro h
      exact absurd (Finset.mem_range.mpr hc) h
  · intro b _ hb
    simp only [if_neg hb, Finset.sum_const_zero]
  · intro h
    exact absurd (Finset.mem_range.mpr hr) h

/-! ## `filter2DFreq` -/

theorem filter2DFreq_ok (inputImg H : Mat ℝ) (hr : inputImg.rows = H.rows)
    (hc : inputImg.cols = H.cols) :
    ∃ out, filter2DFreq inputImg H = .ok out ∧ out.rows = inputImg.rows ∧
      out.cols = inputImg.cols := by
  unfold filter2DFreq mulSpectrums
  simp only [dft, merge, Mat.clone]
  rw [if_pos ⟨hr, hc⟩]
  exact ⟨_, rfl, rfl, rfl⟩

/-- The array returned by `filter2DFreq` when the sizes agree, element by
element: the transform sums written out on the elements of the inputs. -/
theorem filter2DFreq_px (inputImg H : Mat ℝ) (hr : inputImg.rows = H.rows)
    (hc : inputImg.cols = H.cols) :
    ∃ out, filter2DFreq inputImg H = .ok out ∧ out.rows = inputImg.rows ∧
      out.cols = inputImg.cols ∧
      ∀ r c, out.px r c =
        (∑ k ∈ Finset.range inputImg.rows, ∑ l ∈ Finset.range inputImg.cols,
          dftKernel true inputImg.rows r k *
            (1 / ((inputImg.rows * inputImg.cols : Nat) : ℂ) *
              ∑ m ∈ Finset.range inputImg.rows, ∑ n ∈ Finset.range inputImg.cols,
                dftKernel false inputImg.rows k m * ((inputImg.px m n : ℝ) : ℂ) *
                  dftKernel false inputImg.cols n l) *
            ((H.px k l : ℝ) : ℂ) *
          dftKernel true inputImg.cols l c).re := by
  unfold filter2DFreq mulSpectrums
  simp only [dft, merge, Mat.clone]
  rw [if_pos ⟨hr, hc⟩]
  refine ⟨_, rfl, rfl, rfl, fun r c => ?_⟩
  simp only [split, idft, dft, DFT_SCALE, DFT_NONE, Bool.false_eq_true, if_false, if_true, one_mul]
  congr 1
  refine Finset.sum_congr rfl fun k _ => Finset.sum_congr rfl fun l _ => ?_
  have e1 : ∀ v : ℝ, (⟨v, 0⟩ : ℂ) = (v : ℂ) := fun _ => rfl
  have e2 : ∀ k l, (⟨H.px k l, (Mat.zeros H.size).px k l⟩ : ℂ) = ((H.px k l : ℝ) : ℂ) :=
    fun _ _ => rfl
  have e3 : ∀ m n, (⟨inputImg.px m n, (Mat.zeros inputImg.size).px m n⟩ : ℂ) =
      ((inputImg.px m n : ℝ) : ℂ) := fun _ _ => rfl
  simp only [e2, e3]
  ring

/-- C10: in `filter2DFreq` the forward transform scaled by `1/N` followed by the
unscaled inverse transform is the identity on real arrays (the real plane of
`idft (dft x DFT_SCALE)` is `x` at every index of the array), and with the
all-ones array `H` of the same dimensions `filter2DFreq image H` returns an
array of the dimensions of the image whose every element is the element of the
image. -/
theorem C10_roundtrip_all_ones (image : Mat ℝ) :
    (∀ r c, r < image.rows → c < image.cols →
      (split (idft (dft (merge image (Mat.zeros image.size)) DFT_SCALE) DFT_NONE)).1.px r c =
        image.px r c) ∧
    ∃ out, filter2DFreq image (onesLike image) = .ok out ∧
      out.rows = image.rows ∧ out.cols = image.cols ∧
      ∀ r c, r < image.rows → c < image.cols → out.px r c = image.px r c := by
  constructor
  · intro r c hr hc
    simp only [split, idft, dft, merge, DFT_SCALE, DFT_NONE, Bool.false_eq_true, if_false,
      if_true, one_mul]
    have e : ∀ m n, (⟨image.px m n, (Mat.zeros image.size).px m n⟩ : ℂ) =
        ((image.px m n : ℝ) : ℂ) := fun _ _ => rfl
    simp only [e]
    rw [dft_roundtrip_sum (fun m n => ((image.px m n : ℝ) : ℂ)) image.rows image.cols r c hr hc]
    exact Complex.ofReal_re _
  · obtain ⟨out, hout, h1, h2, hpx⟩ := filter2DFreq_px image (onesLike image) rfl rfl
    refine ⟨out, hout, h1, h2, fun r c hr hc => ?_⟩
    rw [hpx r c]
    have hone : ∀ k l, (((onesLike image).px k l : ℝ) : ℂ) = 1 := by
      intro k l
      simp [onesLike, Mat.filled]
    simp only [hone, mul_one]
    rw [dft_roundtrip_sum (fun m n => ((image.px m n : ℝ) : ℂ)) image.rows image.cols r c hr hc]
    exact Complex.ofReal_re _

theorem C10_roundtrip_all_ones_witness :
    ∃ out, filter2DFreq sampleImage (onesLike sampleImage) = .ok out ∧
      out.rows = 3 ∧ out.cols = 5 ∧
      ∀ r c, r < 3 → c < 5 → out.px r c = sampleImage.px r c :=
  (C10_roundtrip_all_ones sampleImage).2

theorem exp_forward_split (R C a b : Nat) :
    Complex.exp (-(2 * Real.pi * Complex.I) * (((a : Nat) : ℂ) / R + ((b : Nat) : ℂ) / C)) =
      Complex.exp (-1 * (2 * Real.pi * Complex.I) * ((a : Nat) : ℂ) / R) *
        Complex.exp (-1 * (2 * Real.pi * Complex.I) * ((b : Nat) : ℂ) / C) := by
  rw [← Complex.exp_add]
  congr 1
  ring

theorem exp_inverse_split (R C a b : Nat) :
    Complex.exp (2 * Real.pi * Complex.I * (((a : Nat) : ℂ) / R + ((b : Nat) : ℂ) / C)) =
      Complex.exp (1 * (2 * Real.pi * Complex.I) * ((a : Nat) : ℂ) / R) *
        Complex.exp (1 * (2 * Real.pi * Complex.I) * ((b : Nat) : ℂ) / C) := by
  rw [← Complex.exp_add]
  congr 1
  ring

theorem specDft_eq (x : Mat ℝ) (k l : Nat) :
    specDft x k l = ∑ m ∈ Finset.range x.rows, ∑ n ∈ Finset.range x.cols,
      dftKernel false x.rows k m * ((x.px m n : ℝ) : ℂ) * dftKernel false x.cols n l := by
  unfold specDft
  refine Finset.sum_congr rfl fun m _ => Finset.sum_congr rfl fun n _ => ?_
  rw [exp_forward_split, dftKernel_symm false x.cols n l]
  simp only [dftKernel, Bool.false_eq_true, if_false]
  ring

theorem specIdftRe_eq (rows cols : Nat) (X : Nat → Nat → ℂ) (r c : Nat) :
    specIdftRe rows cols X r c =
      (∑ k ∈ Finset.range rows, ∑ l ∈ Finset.range cols,
        dftKernel true rows r k * X k l * dftKernel true cols l c).re := by
  unfold specIdftRe
  congr 1
  refine Finset.sum_congr rfl fun k _ => Finset.sum_congr rfl fun l _ => ?_
  rw [exp_inverse_split, dftKernel_symm true cols l c]
  simp only [dftKernel, if_true]
  ring

/-- What `filter2DFreq` returns when the sizes agree, against the reference with
the kernel used as a transfer function. -/
theorem filter2DFreq_transfer (image kernel : Mat ℝ) (hr : image.rows = kernel.rows)
    (hc : image.cols = kernel.cols) :
    ∃ out, filter2DFreq image kernel = .ok out ∧
      out.rows = image.rows ∧ out.cols = image.cols ∧
      ∀ r c, out.px r c = specFilterTransferFunction image kernel r c := by
  obtain ⟨out, hout, h1, h2, hpx⟩ := filter2DFreq_px image kernel hr hc
  refine ⟨out, hout, h1, h2, fun r c => ?_⟩
  rw [hpx r c, specFilterTransferFunction, specIdftRe_eq]
  congr 1
  refine Finset.sum_congr rfl fun k _ => Finset.sum_congr rfl fun l _ => ?_
  rw [specDft_eq]
  ring

/-- C2 (as stated) fails: for the 1 x 2 image `[1, 0]` and the kernel `[1, 0]`
`filter2DFreq` returns 1/2 at the origin, while the six steps of the
specification (which transform the kernel first) give 1. -/
theorem C2_six_step_counterexample :
    ∃ out, filter2DFreq impulseRow impulseRow = .ok out ∧ out.px 0 0 = 1 / 2 ∧
      specFilterSixStep impulseRow impulseRow 0 0 = 1 ∧
      out.px 0 0 ≠ specFilterSixStep impulseRow impulseRow 0 0 := by
  obtain ⟨out, hout, -, -, hpx⟩ := filter2DFreq_px impulseRow impulseRow rfl rfl
  have h1 : out.px 0 0 = 1 / 2 := by
    rw [hpx 0 0]
    simp [impulseRow, Finset.sum_range_succ, dftKernel_zero_left, dftKernel_zero_right]
  have h2 : specFilterSixStep impulseRow impulseRow 0 0 = 1 := by
    simp [specFilterSixStep, specIdftRe, specDft, impulseRow, Finset.sum_range_succ]
  refine ⟨out, hout, h1, h2, ?_⟩
  rw [h1, h2]
  norm_num

/-- C2 (amended): for every image and kernel of the same dimensions `filter2DFreq`
returns an array of those dimensions whose elements are the real part of the
inverse transform of the pointwise complex product (no conjugation) of the
image spectrum divided by the element count and the kernel itself, promoted
to complex with zero imaginary part: the kernel is used as a frequency-domain
transfer function and is not Fourier-transformed. -/
theorem C2_filter2DFreq_reference (image kernel : Mat ℝ) (hrows : image.rows = kernel.rows)
    (hcols : image.cols = kernel.cols) :
    ∃ out, filter2DFreq image kernel = .ok out ∧
      out.rows = image.rows ∧ out.cols = image.cols ∧
      ∀ r c, out.px r c = specFilterTransferFunction image kernel r c :=
  filter2DFreq_transfer image kernel hrows hcols

theorem C2_filter2DFreq_reference_witness :
    rampRow.rows = impulseRow.rows ∧ rampRow.cols = impulseRow.cols ∧
    ∃ out, filter2DFreq rampRow impulseRow = .ok out ∧
      out.rows = rampRow.rows ∧ out.cols = rampRow.cols ∧
      ∀ r c, out.px r c = specFilterTransferFunction rampRow impulseRow r c :=
  ⟨rfl, rfl, C2_filter2DFreq_reference rampRow impulseRow rfl rfl⟩

/-- What `filter2DFreq` returns for the centre unit impulse as `H`. -/
theorem filter2DFreq_unitImpulse (image : Mat ℝ) (hrows : image.rows % 2 = 0)
    (hcols : image.cols % 2 = 0) :
    ∃ out, filter2DFreq image (unitImpulse image.rows image.cols) = .ok out ∧
      out.rows = image.rows ∧ out.cols = image.cols ∧
      ∀ r c, r < image.rows → c < image.cols →
        out.px r c =
          (-1) ^ (r + c) * alternatingSum image / ((image.rows * image.cols : Nat) : ℝ) := by
  obtain ⟨out, hout, h1, h2, hpx⟩ :=
    filter2DFreq_px image (unitImpulse image.rows image.cols) rfl rfl
  refine ⟨out, hout, h1, h2, fun r c hr hc => ?_⟩
  have hR : 0 < image.rows := by omega
  have hC : 0 < image.cols := by omega
  rw [hpx r c]
  rw [Finset.sum_eq_single (image.rows / 2)]
  · rw [Finset.sum_eq_single (image.cols / 2)]
    · have hK : (unitImpulse image.rows image.cols).px (image.rows / 2) (image.cols / 2) = 1 := by
        simp [unitImpulse]
      rw [hK, dftKernel_inverse_half _ _ hR hrows, dftKernel_symm true image.cols,
        dftKernel_inverse_half _ _ hC hcols]
      have hs : ∑ m ∈ Finset.range image.rows, ∑ n ∈ Finset.range image.cols,
          dftKernel false image.rows (image.rows / 2) m * ((image.px m n : ℝ) : ℂ) *
            dftKernel false image.cols n (image.cols / 2) =
          ((alternatingSum image : ℝ) : ℂ) := by
        unfold alternatingSum
        push_cast
        refine Finset.sum_congr rfl fun m _ => Finset.sum_congr rfl fun n _ => ?_
        rw [dftKernel_forward_half _ _ hR hrows, dftKernel_symm false image.cols,
          dftKernel_forward_half _ _ hC hcols]
        ring
      rw [hs]
      have hfin : (-1 : ℂ) ^ r * (1 / ((image.rows * image.cols : Nat) : ℂ) *
          ((alternatingSum image : ℝ) : ℂ)) * ((1 : ℝ) : ℂ) * (-1) ^ c =
          (((-1) ^ (r + c) * alternatingSum image / ((image.rows * image.cols : Nat) : ℝ) : ℝ) : ℂ) := by
        push_cast
        ring
      rw [hfin]
      exact Complex.ofReal_re _
    · intro l _ hl
      have hK : (unitImpulse image.rows image.cols).px (image.rows / 2) l = 0 := by
        simp [unitImpulse, hl]
      rw [hK]
      simp
    · intro h
      exact absurd (Finset.mem_range.mpr (by omega)) h
  · intro k _ hk
    refine Finset.sum_eq_zero fun l _ => ?_
    have hK : (unitImpulse image.rows image.cols).px k l = 0 := by
      simp [unitImpulse, hk]
    rw [hK]
    simp
  · intro h
    exact absurd (Finset.mem_range.mpr (by omega)) h

theorem fftshift_unitImpulse_px (rows cols m n : Nat) (hrows : rows % 2 = 0)
    (hcols : cols % 2 = 0) (hm : m < rows) (hn : n < cols) :
    (fftshift (unitImpulse rows cols)).px m n = if m = 0 ∧ n = 0 then 1 else 0 := by
  rw [fftshift_px_even (unitImpulse rows cols) hrows hcols m n hm hn]
  show (if (m + rows / 2) % rows = rows / 2 ∧ (n + cols / 2) % cols = cols / 2 then (1 : ℝ)
    else 0) = _
  rw [half_shift_mod rows m hrows hm, half_shift_mod cols n hcols hn]
  have e1 : (if m < rows / 2 then m + rows / 2 else m - rows / 2) = rows / 2 ↔ m = 0 := by
    split_ifs <;> omega
  have e2 : (if n < cols / 2 then n + cols / 2 else n - cols / 2) = cols / 2 ↔ n = 0 := by
    split_ifs <;> omega
  simp only [e1, e2]

/-- C4 (as stated) fails: for the 2 x 2 image with a single 1 at the origin and
the unit impulse at the centre `(1, 1)` as kernel, `filter2DFreq` returns 1/4
at the origin, not the image value 1. -/
theorem C4_unit_impulse_counterexample :
    originSample.rows % 2 = 0 ∧ originSample.cols % 2 = 0 ∧
    (fftshift (unitImpulse 2 2)).px 0 0 = 1 ∧
    ∃ out, filter2DFreq originSample (unitImpulse originSample.rows originSample.cols) = .ok out ∧
      out.px 0 0 = 1 / 4 ∧ originSample.px 0 0 = 1 ∧ out.px 0 0 ≠ originSample.px 0 0 := by
  obtain ⟨out, hout, -, -, hpx⟩ := filter2DFreq_unitImpulse originSample rfl rfl
  have h1 : out.px 0 0 = 1 / 4 := by
    rw [hpx 0 0 (by decide) (by decide)]
    simp [alternatingSum, originSample, Finset.sum_range_succ]
  have h2 : originSample.px 0 0 = 1 := by simp [originSample]
  refine ⟨rfl, rfl, ?_, out, hout, h1, h2, ?_⟩
  · rw [fftshift_unitImpulse_px 2 2 0 0 rfl rfl (by decide) (by decide)]
    simp
  · rw [h1, h2]
    norm_num

/-- C4 (amended): for every image with even dimensions, `filter2DFreq image K`
with `K` the unit impulse at `(rows/2, cols/2)`, the position that `fftshift`
maps to the origin, returns an array of the dimensions of the image whose
element at `(r, c)` is `(-1)^(r+c)` times the alternating sum of the image
divided by the element count (the kernel is used as a frequency-domain
transfer function). -/
theorem C4_unit_impulse_output (image : Mat ℝ) (hrows : image.rows % 2 = 0)
    (hcols : image.cols % 2 = 0) :
    (∀ m n, m < image.rows → n < image.cols →
      (fftshift (unitImpulse image.rows image.cols)).px m n = if m = 0 ∧ n = 0 then 1 else 0) ∧
    ∃ out, filter2DFreq image (unitImpulse image.rows image.cols) = .ok out ∧
      out.rows = image.rows ∧ out.cols = image.cols ∧
      ∀ r c, r < image.rows → c < image.cols →
        out.px r c =
          (-1) ^ (r + c) * alternatingSum image / ((image.rows * image.cols : Nat) : ℝ) :=
  ⟨fun m n hm hn => fftshift_unitImpulse_px image.rows image.cols m n hrows hcols hm hn,
    filter2DFreq_unitImpulse image hrows hcols⟩

theorem C4_unit_impulse_output_witness :
    originSample.rows % 2 = 0 ∧ originSample.cols % 2 = 0 ∧
    ((∀ m n, m < originSample.rows → n < originSample.cols →
      (fftshift (unitImpulse originSample.rows originSample.cols)).px m n =
        if m = 0 ∧ n = 0 then 1 else 0) ∧
    ∃ out, filter2DFreq originSample (unitImpulse originSample.rows originSample.cols) =
        .ok out ∧
      out.rows = originSample.rows ∧ out.cols = originSample.cols ∧
      ∀ r c, r < originSample.rows → c < originSample.cols →
        out.px r c = (-1) ^ (r + c) * alternatingSum originSample /
          ((originSample.rows * originSample.cols : Nat) : ℝ)) :=
  ⟨rfl, rfl, C4_unit_impulse_output originSample rfl rfl⟩

/-! ## The processing section of `main` -/

theorem land_neg_two (n : Nat) : Int.land (n : Int) (-2) = ((2 * (n / 2) : Nat) : Int) := by
  show Int.land (Int.ofNat n) (Int.negSucc 1) = _
  simp only [Int.land]
  congr 1
  apply Nat.eq_of_testBit_eq
  intro i
  rw [Nat.testBit_ldiff]
  cases i with
  | zero => simp [Nat.testBit_zero]
  | succ k => simp [Nat.testBit_succ]

theorem mainCore_ok (cover : EllipseCoverage) (imgIn : Mat ℝ) (LEN THETA snr : Int)
    (hlen : 0 ≤ LEN) :
    ∃ v, mainCore cover imgIn LEN THETA snr = .ok v ∧
      v.roi = ⟨0, 0, 2 * (imgIn.cols / 2), 2 * (imgIn.rows / 2)⟩ ∧
      v.h.cols = v.roi.width ∧ v.h.rows = v.roi.height ∧
      v.Hw.cols = v.roi.width ∧ v.Hw.rows = v.roi.height ∧
      v.cropped.cols = v.roi.width ∧ v.cropped.rows = v.roi.height ∧
      v.imgOut.cols = v.roi.width ∧ v.imgOut.rows = v.roi.height ∧
      filter2DFreq v.cropped v.Hw = .ok v.imgOut := by
  unfold mainCore
  dsimp only
  rw [land_neg_two, land_neg_two, Int.toNat_ofNat, Int.toNat_ofNat]
  rw [calcPSF_ok cover _ LEN THETA hlen]
  let roi : Rect := ⟨0, 0, 2 * (imgIn.cols / 2), 2 * (imgIn.rows / 2)⟩
  let h : Mat ℝ := (calcPSF.h cover roi.size LEN THETA).divScalar
    (calcPSF.h cover roi.size LEN THETA).sum
  let Hw : Mat ℝ := calcWnrFilter h (1 / (snr : ℝ))
  obtain ⟨out, hout, hr, hc⟩ := filter2DFreq_ok (imgIn.view roi) Hw rfl rfl
  refine ⟨⟨roi, h, Hw, imgIn.view roi, out⟩, ?_, rfl, rfl, rfl, rfl, rfl, rfl, rfl, hc, hr, hout⟩
  show (do
    let imgOut ← filter2DFreq _ _
    pure _) = _
  rw [hout]
  rfl

/-- C8: even cropping.  For a loaded image whose `cols` and `rows` are
non-negative 32-bit signed integers, the region processed by `main` has width
`cols & -2` and height `rows & -2`; each is even, is between 0 and the original
dimension, differs from it by at most 1 and is the largest even number not
above it; and (the length option being non-negative, so that `calcPSF`
returns) the PSF, the Wiener filter and the cropped image passed to
`filter2DFreq` all have exactly these dimensions. -/
theorem C8_even_cropping (cover : EllipseCoverage) (imgIn : Mat ℝ) (LEN THETA snr : Int)
    (hcols : (imgIn.cols : Int) < 2 ^ 31) (hrows : (imgIn.rows : Int) < 2 ^ 31)
    (hlen : 0 ≤ LEN) :
    (Int.land (imgIn.cols : Int) (-2) % 2 = 0 ∧ 0 ≤ Int.land (imgIn.cols : Int) (-2) ∧
      Int.land (imgIn.cols : Int) (-2) ≤ imgIn.cols ∧
      (imgIn.cols : Int) - Int.land (imgIn.cols : Int) (-2) ≤ 1 ∧
      ∀ e : Int, e % 2 = 0 → e ≤ imgIn.cols → e ≤ Int.land (imgIn.cols : Int) (-2)) ∧
    (Int.land (imgIn.rows : Int) (-2) % 2 = 0 ∧ 0 ≤ Int.land (imgIn.rows : Int) (-2) ∧
      Int.land (imgIn.rows : Int) (-2) ≤ imgIn.rows ∧
      (imgIn.rows : Int) - Int.land (imgIn.rows : Int) (-2) ≤ 1 ∧
      ∀ e : Int, e % 2 = 0 → e ≤ imgIn.rows → e ≤ Int.land (imgIn.rows : Int) (-2)) ∧
    ∃ v, mainCore cover imgIn LEN THETA snr = .ok v ∧
      (v.roi.width : Int) = Int.land (imgIn.cols : Int) (-2) ∧
      (v.roi.height : Int) = Int.land (imgIn.rows : Int) (-2) ∧
      ((v.h.cols : Int) = Int.land (imgIn.cols : Int) (-2) ∧
        (v.h.rows : Int) = Int.land (imgIn.rows : Int) (-2)) ∧
      ((v.Hw.cols : Int) = Int.land (imgIn.cols : Int) (-2) ∧
        (v.Hw.rows : Int) = Int.land (imgIn.rows : Int) (-2)) ∧
      ((v.cropped.cols : Int) = Int.land (imgIn.cols : Int) (-2) ∧
        (v.cropped.rows : Int) = Int.land (imgIn.rows : Int) (-2)) ∧
      filter2DFreq v.cropped v.Hw = .ok v.imgOut := by
  rw [land_neg_two, land_neg_two]
  refine ⟨?_, ?_, ?_⟩
  · refine ⟨by omega, by omega, by omega, by omega, ?_⟩
    intro e he hle
    omega
  · refine ⟨by omega, by omega, by omega, by omega, ?_⟩
    intro e he hle
    omega
  · obtain ⟨v, hv, hroi, h1, h2, h3, h4, h5, h6, -, -, hf⟩ :=
      mainCore_ok cover imgIn LEN THETA snr hlen
    have hw : v.roi.width = 2 * (imgIn.cols / 2) := by rw [hroi]
    have hh : v.roi.height = 2 * (imgIn.rows / 2) := by rw [hroi]
    refine ⟨v, hv, ?_, ?_, ⟨?_, ?_⟩, ⟨?_, ?_⟩, ⟨?_, ?_⟩, hf⟩
    · rw [hw]
    · rw [hh]
    · rw [h1, hw]
    · rw [h2, hh]
    · rw [h3, hw]
    · rw [h4, hh]
    · rw [h5, hw]
    · rw [h6, hh]

theorem C8_even_cropping_witness :
    (sampleImage.cols : Int) < 2 ^ 31 ∧ (sampleImage.rows : Int) < 2 ^ 31 ∧ (0 : Int) ≤ 78 ∧
    Int.land (sampleImage.cols : Int) (-2) = 4 ∧ Int.land (sampleImage.rows : Int) (-2) = 2 ∧
    ∃ v, mainCore centreOnly sampleImage 78 12 100 = .ok v ∧
      ((v.h.cols : Int) = 4 ∧ (v.h.rows : Int) = 2) ∧
      ((v.Hw.cols : Int) = 4 ∧ (v.Hw.rows : Int) = 2) ∧
      ((v.cropped.cols : Int) = 4 ∧ (v.cropped.rows : Int) = 2) ∧
      filter2DFreq v.cropped v.Hw = .ok v.imgOut := by
  have hc : (sampleImage.cols : Int) < 2 ^ 31 := by simp [sampleImage]
  have hr : (sampleImage.rows : Int) < 2 ^ 31 := by simp [sampleImage]
  have e1 : Int.land (sampleImage.cols : Int) (-2) = 4 := by
    rw [land_neg_two]
    rfl
  have e2 : Int.land (sampleImage.rows : Int) (-2) = 2 := by
    rw [land_neg_two]
    rfl
  obtain ⟨-, -, v, hv, -, -, h1, h2, h3, hf⟩ :=
    C8_even_cropping centreOnly sampleImage 78 12 100 hc hr (by decide)
  rw [e1, e2] at h1 h2 h3
  exact ⟨hc, hr, by decide, e1, e2, v, hv, h1, h2, h3, hf⟩

end MotionDeblur
